import Mathlib

/-!
Verification of the SIMD iteration core of the `faster` crate
(`src/src/iters.rs`).  Buffers and vectors are embedded as Lean lists of
scalars; a vector of width `w` is a list of length `w`.  The lane-level
vector operations live in `vecs.rs`, which is outside the sources under
study, so they are modelled from the specification's description of the
vector capability; everything else is translated directly from
`src/src/iters.rs`.
-/

namespace Faster

/-- Modelled from the spec: the vector capability's bulk load (`vecs.rs` is
not part of the studied sources).  Loads `w` consecutive scalars of `buf`
starting at scalar offset `off`. -/
def load {α : Type} (buf : List α) (off w : Nat) : List α :=
  (buf.drop off).take w

/-- Modelled from the spec: the vector capability's bulk store.  Writes the
lanes of `v` into `buf` at consecutive scalar offsets starting at `off`. -/
def storeVec {α : Type} (buf : List α) (v : List α) (off : Nat) : List α :=
  buf.take off ++ (v ++ buf.drop (off + v.length))

/-- Modelled from the spec: the vector capability's lane replace. -/
def replaceLane {α : Type} (v : List α) (i : Nat) (x : α) : List α :=
  v.set i x

/-- Modelled from the spec: the vector capability's lane extract. -/
def extractLane {α : Type} [Inhabited α] (v : List α) (i : Nat) : α :=
  v.getD i default

/-- Modelled from the spec: merge of two vectors at lane split point `n`;
the first `n` lanes come from `a` and the remaining lanes from `b`
(used for the right-aligned tail, padding in the low lanes). -/
def mergePartitioned {α : Type} (a b : List α) (n : Nat) : List α :=
  a.take n ++ b.drop n

/-- Modelled from the spec: default-construction of a vector
(`Vector::default()`), every lane holding the scalar default. -/
def vecDefault (α : Type) [Inhabited α] (w : Nat) : List α :=
  List.replicate w default

/-- The slice-backed producer `SIMDIter` of `src/src/iters.rs`: a scalar
cursor `position`, the underlying buffer `data` and the padding vector
`default`. -/
structure SIMDIter (α : Type) where
  position : Nat
  data : List α
  default : List α

namespace SIMDIter

/-- `scalar_len` for the array-backed producer: the buffer's length. -/
def scalar_len {α : Type} (it : SIMDIter α) : Nat :=
  it.data.length

/-- `scalar_pos`: the current cursor position. -/
def scalar_pos {α : Type} (it : SIMDIter α) : Nat :=
  it.position

/-- `advance`: move the cursor forward by `amount` scalars. -/
def advance {α : Type} (it : SIMDIter α) (amount : Nat) : SIMDIter α :=
  { it with position := it.position + amount }

/-- `SIMDIterable::finalize`: advance the cursor by the remaining length. -/
def finalize {α : Type} (it : SIMDIter α) : SIMDIter α :=
  it.advance (it.scalar_len - it.scalar_pos)

/-- `Iterator::next` for `SIMDIter` (`iters.rs` lines 463-477): if a full
vector remains, load it at the cursor and advance by the width. -/
def next {α : Type} (w : Nat) (it : SIMDIter α) : Option (List α × SIMDIter α) :=
  if it.position + w ≤ it.scalar_len then
    some (load it.data it.position w, it.advance w)
  else
    none

/-- The scalar fill loop of the blanket `SIMDIterator::end`
(`iters.rs` lines 536-540): for `i` in `pos..len`,
`ret = ret.replace_unchecked (i + empty_amt, data[i])`. -/
def endFillLoop {α : Type} [Inhabited α] (data : List α) (empty_amt : Nat)
    (ret : List α) (pos len : Nat) : List α :=
  (List.range' pos (len - pos)).foldl
    (fun r i => replaceLane r (i + empty_amt) (data.getD i Inhabited.default)) ret

/-- The blanket `SIMDIterator::end` for array-backed producers
(`iters.rs` lines 525-549).  Returns the right-aligned tail vector and the
empty-lane count, finalizing the cursor. -/
def endIter {α : Type} [Inhabited α] (w : Nat) (it : SIMDIter α) :
    Option ((List α × Nat) × SIMDIter α) :=
  if it.scalar_pos < it.scalar_len then
    some (((if w < it.scalar_len then
              mergePartitioned it.default (load it.data (it.scalar_len - w) w)
                (w - (it.scalar_len - it.scalar_pos))
            else
              endFillLoop it.data (w - (it.scalar_len - it.scalar_pos))
                it.default it.scalar_pos it.scalar_len),
           w - (it.scalar_len - it.scalar_pos)), it.finalize)
  else
    none

/-- Fuelled iteration of `next`: the list of full vectors produced in order,
together with the final iterator state. -/
def runNexts {α : Type} (w : Nat) : Nat → SIMDIter α → List (List α) × SIMDIter α
  | 0, it => ([], it)
  | fuel+1, it =>
    match next w it with
    | none => ([], it)
    | some (v, it') =>
      (v :: (runNexts w fuel it').1, (runNexts w fuel it').2)

/-- The `while let Some(v) = self.next()` loop of `simd_reduce`
(`iters.rs` lines 160-162), fuelled. -/
def reduceLoop {α β : Type} (w : Nat) (f : β → List α → β) :
    Nat → β → SIMDIter α → β × SIMDIter α
  | 0, acc, it => (acc, it)
  | fuel+1, acc, it =>
    match next w it with
    | none => (acc, it)
    | some (v, it') => reduceLoop w f fuel (f acc v) it'

/-- `SIMDIterator::simd_reduce` (`iters.rs` lines 157-167): fold `f` over all
full vectors, then once over the tail vector if one exists. -/
def simd_reduce {α β : Type} [Inhabited α] (w fuel : Nat) (start : β)
    (f : β → List α → β) (it : SIMDIter α) : β × SIMDIter α :=
  let r := reduceLoop w f fuel start it
  match endIter w r.2 with
  | none => r
  | some ((v, _), it2) => (f r.1 v, it2)

/-- The while-loop of `scalar_collect` (`iters.rs` lines 711-715): store each
full vector at the running offset, remembering the last stored vector.
Returns the buffer, the final offset, the last vector and the iterator. -/
def collectLoop {α : Type} (w : Nat) :
    Nat → SIMDIter α → List α → Nat → List α → List α × Nat × List α × SIMDIter α
  | 0, it, ret, offset, lastvec => (ret, offset, lastvec, it)
  | fuel+1, it, ret, offset, lastvec =>
    match next w it with
    | none => (ret, offset, lastvec, it)
    | some (vec, it') =>
      collectLoop w fuel it' (storeVec ret vec offset) (offset + w) vec

/-- `IntoScalar::scalar_collect` (`iters.rs` lines 702-734).  The freshly
allocated uninitialized memory of capacity `(len + 1) * width` is the
explicit parameter `uninit`; `Vec::set_len` at the end is `List.take`. -/
def scalar_collect {α : Type} [Inhabited α] (w fuel : Nat) (uninit : List α)
    (it : SIMDIter α) : List α :=
  match collectLoop w fuel it uninit 0 (vecDefault α w) with
  | (ret, offset, lastvec, it1) =>
    match endIter w it1 with
    | some ((p, n), _) =>
      if 0 < offset then
        (storeVec (storeVec ret p (offset - n)) lastvec (offset - w)).take
          (w + offset - n)
      else
        ((List.range (w - n)).foldl
          (fun r i => r.set (offset + i) (extractLane p (i + n))) ret).take
          (w + offset - n)
    | none => ret.take (it.data.length / w * w)

/-- The while-loop of `scalar_fill_all` (`iters.rs` lines 783-786). -/
def fillAllLoop {α : Type} (w : Nat) :
    Nat → SIMDIter α → List α → Nat → List α × Nat × SIMDIter α
  | 0, it, fill, offset => (fill, offset, it)
  | fuel+1, it, fill, offset =>
    match next w it with
    | none => (fill, offset, it)
    | some (vec, it') => fillAllLoop w fuel it' (storeVec fill vec offset) (offset + w)

/-- `IntoScalar::scalar_fill_all` (`iters.rs` lines 779-793): store every
full vector, then the tail vector verbatim at the next free offset. -/
def scalar_fill_all {α : Type} [Inhabited α] (w fuel : Nat) (it : SIMDIter α)
    (fill : List α) : List α × SIMDIter α :=
  match fillAllLoop w fuel it fill 0 with
  | (fill1, offset, it1) =>
    match endIter w it1 with
    | none => (fill1, it1)
    | some ((vec, _), it2) => (storeVec fill1 vec offset, it2)

/-- `IntoScalar::scalar_collect_all` (`iters.rs` lines 767-777): allocate
capacity `(len + 1) * width` (the arbitrary contents are the parameter
`uninit`), call `set_len(self.len())` — so the returned Vec's length is the
vector count `self.len()` — then run `scalar_fill_all` over the allocation
(its unchecked stores write into the full capacity). -/
def scalar_collect_all {α : Type} [Inhabited α] (w fuel : Nat) (uninit : List α)
    (it : SIMDIter α) : List α :=
  ((scalar_fill_all w fuel it uninit).1).take (it.data.length / w)

/-- The while-loop of `simd_for_each` (`iters.rs` lines 556-561): mutate each
full vector with `func` and store it back at the offset it was loaded from. -/
def forEachLoop {α : Type} (w : Nat) (f : List α → List α) :
    Nat → SIMDIter α → List α → SIMDIter α × List α
  | 0, it, lastvec => (it, lastvec)
  | fuel+1, it, lastvec =>
    match next w it with
    | none => (it, lastvec)
    | some (v, it') =>
      forEachLoop w f fuel
        ⟨it'.position, storeVec it'.data (f v) (it'.position - w), it'.default⟩
        (f v)

/-- `SIMDIteratorMut::simd_for_each` for `SIMDIter` (`iters.rs` lines
551-580): the forward loop, then the tail, written back either as two
overlapping vector stores (when a full vector fits in the buffer) or
scalar-by-scalar for the populated lanes. -/
def simd_for_each {α : Type} [Inhabited α] (w fuel : Nat)
    (f : List α → List α) (it : SIMDIter α) : SIMDIter α :=
  match forEachLoop w f fuel it (vecDefault α w) with
  | (it1, lastvec) =>
    match endIter w it1 with
    | none => it1
    | some ((p0, n), it2) =>
      if w < it2.scalar_len then
        ⟨it2.position,
         storeVec (storeVec it2.data (f p0) (it1.position - n)) lastvec
           (it1.position - w),
         it2.default⟩
      else
        ⟨it2.position,
         (List.range (w - n)).foldl
           (fun buf i => buf.set (it1.position + i) (extractLane (f p0) (i + n)))
           it2.data,
         it2.default⟩

/-- The scalar stores issued by the tail of `simd_for_each` (`iters.rs`
lines 573-577): the list of `(index, value)` pairs passed to
`store_scalar_unchecked` in the elementwise branch (empty in the
vector-store branch or when there is no tail). -/
def forEachTailStores {α : Type} [Inhabited α] (w fuel : Nat)
    (f : List α → List α) (it : SIMDIter α) : List (Nat × α) :=
  match forEachLoop w f fuel it (vecDefault α w) with
  | (it1, _lastvec) =>
    match endIter w it1 with
    | none => []
    | some ((p0, n), it2) =>
      if w < it2.scalar_len then []
      else (List.range (w - n)).map
        (fun i => (it1.position + i, extractLane (f p0) (i + n)))

end SIMDIter

/-- Modelled from the spec: the constructor wrapping a scalar buffer into an
array-backed producer with a caller-chosen padding vector; the cursor starts
at position 0 (the constructor itself lives outside `src/src/iters.rs`). -/
def simd_iter {α : Type} (data : List α) (d : List α) : SIMDIter α :=
  ⟨0, data, d⟩

/-- The lazy mapping producer `SIMDMap` (`iters.rs` lines 215-220),
parametric in the inner producer type `ι`. -/
structure SIMDMap (ι γ δ : Type) where
  iter : ι
  func : γ → δ

namespace SIMDMap

/-- `Iterator::next` for `SIMDMap` (`iters.rs` lines 614-622):
`self.iter.next().map(&mut self.func)`; the inner producer's stepping
function is the parameter `nextI`. -/
def mapNext {ι γ δ : Type} (nextI : ι → Option (γ × ι))
    (m : SIMDMap ι γ δ) : Option (δ × SIMDMap ι γ δ) :=
  match nextI m.iter with
  | none => none
  | some (v, it') => some (m.func v, ⟨it', m.func⟩)

/-- `SIMDIterator::end` for `SIMDMap` (`iters.rs` lines 669-677): delegate
to the inner producer's tail, apply the function, and rescale the inner
empty-lane count by `inner scalar size / outer scalar size`. -/
def mapEnd {ι γ δ : Type} (endI : ι → Option ((γ × Nat) × ι))
    (inSize outSize : Nat) (m : SIMDMap ι γ δ) :
    Option ((δ × Nat) × SIMDMap ι γ δ) :=
  match endI m.iter with
  | none => none
  | some ((v, n), it') => some ((m.func v, n * inSize / outSize), ⟨it', m.func⟩)

end SIMDMap

/-- The scalar-sequence adapter `SIMDAdapter` (`iters.rs` lines 224-230):
the remaining inner exact-size scalar sequence, the scratch vector, the
default vector and the cursor.  Note `scalar_len` for the adapter is
`self.iter.len()`, the *remaining* length of the inner sequence
(`iters.rs` lines 287-292). -/
structure SIMDAdapter (α : Type) where
  iter : List α
  scratch : List α
  default : List α
  position : Nat

namespace SIMDAdapter

/-- `scalar_len` for the adapter: the remaining inner sequence's length. -/
def scalar_len {α : Type} (a : SIMDAdapter α) : Nat :=
  a.iter.length

/-- `Iterator::next` for `SIMDAdapter` (`iters.rs` lines 237-257): if
`position + width <= scalar_len()`, pull `width` scalars one at a time from
the inner sequence into the scratch vector lane-by-lane and advance. -/
def adapterNext {α : Type} [Inhabited α] (w : Nat) (a : SIMDAdapter α) :
    Option (List α × SIMDAdapter α) :=
  if a.position + w ≤ a.iter.length then
    some (((List.range w).foldl
            (fun s off => replaceLane s off (a.iter.getD off Inhabited.default))
            a.scratch),
          ⟨a.iter.drop w,
           (List.range w).foldl
             (fun s off => replaceLane s off (a.iter.getD off Inhabited.default))
             a.scratch,
           a.default, a.position + w⟩)
  else
    none

/-- The drain loop of the adapter's `end` (`iters.rs` lines 266-271): pull
every remaining scalar, writing lanes from `width - 1` downward; `offset`
is decremented after each write (the Rust `usize` decrement panics in debug
builds once it would pass below zero; here `Nat` subtraction truncates,
which agrees with the code on all inputs where no underflow occurs). -/
def adapterEndLoop {α : Type} : List α → List α → Nat → List α × Nat
  | [], scratch, offset => (scratch, offset)
  | item :: rest, scratch, offset =>
    adapterEndLoop rest (replaceLane scratch offset item) (offset - 1)

/-- `SIMDIterator::end` for `SIMDAdapter` (`iters.rs` lines 259-278): if
`position < scalar_len()`, reset scratch to the default vector, drain the
inner sequence backward from lane `width - 1`, finalize, and return the
scratch vector paired with the final `offset` value.  `finalize` computes
`scalar_len() - position` on the now-drained sequence, i.e. `0 - position`
(a debug panic in Rust when `position > 0`; `Nat` truncation keeps the
position unchanged, which agrees with the code when `position = 0`). -/
def adapterEnd {α : Type} (w : Nat) (a : SIMDAdapter α) :
    Option ((List α × Nat) × SIMDAdapter α) :=
  if a.position < a.iter.length then
    match adapterEndLoop a.iter a.default (w - 1) with
    | (scratch', offset') =>
      some ((scratch', offset'),
            ⟨[], scratch', a.default, a.position + (0 - a.position)⟩)
  else
    none

/-- Fuelled iteration of the adapter's `next`. -/
def adapterRun {α : Type} [Inhabited α] (w : Nat) :
    Nat → SIMDAdapter α → List (List α) × SIMDAdapter α
  | 0, a => ([], a)
  | fuel+1, a =>
    match adapterNext w a with
    | none => ([], a)
    | some (v, a') =>
      (v :: (adapterRun w fuel a').1, (adapterRun w fuel a').2)

end SIMDAdapter

/-- Modelled from the spec: the constructor wrapping an exact-length scalar
sequence into the adapter producer (the constructor lives outside
`src/src/iters.rs`); scratch starts as the default vector, cursor at 0. -/
def simd_iter_adapter {α : Type} (items : List α) (d : List α) : SIMDAdapter α :=
  ⟨items, d, d, 0⟩

/-- The batching view `Unrolled` (`iters.rs` lines 362-368): the borrowed
inner producer, the batch size `amt` and the scratch array of 8 vectors. -/
structure Unrolled (α : Type) where
  iter : SIMDIter α
  amt : Nat
  scratch : List (List α)

namespace Unrolled

/-- `SIMDIterable::unroll` (`iters.rs` lines 61-70): `assert!(amt <= 8)`,
then build the view with a scratch array of 8 default vectors.  The failed
assertion is modelled as `none`. -/
def unroll {α : Type} [Inhabited α] (w : Nat) (it : SIMDIter α) (amt : Nat) :
    Option (Unrolled α) :=
  if amt ≤ 8 then some ⟨it, amt, List.replicate 8 (vecDefault α w)⟩ else none

/-- The pulling loop of `Unrolled::next` (`iters.rs` lines 387-395): pull up
to `rem` more vectors into the scratch array starting at slot `i`. -/
def unrolledFill {α : Type} (w : Nat) :
    Nat → Nat → SIMDIter α → List (List α) → Nat × SIMDIter α × List (List α)
  | 0, i, it, scratch => (i, it, scratch)
  | rem+1, i, it, scratch =>
    match SIMDIter.next w it with
    | none => (i, it, scratch)
    | some (v, it') => unrolledFill w rem (i + 1) it' (scratch.set i v)

/-- `Iterator::next` for `Unrolled` (`iters.rs` lines 382-404): pull up to
`amt` vectors; if at least one was obtained, yield the view of the first
`i` scratch slots, else yield nothing. -/
def unrolledNext {α : Type} (w : Nat) (u : Unrolled α) :
    Option (List (List α)) × Unrolled α :=
  match unrolledFill w u.amt 0 u.iter u.scratch with
  | (i, it', scr') =>
    if 0 < i then (some (scr'.take i), ⟨it', u.amt, scr'⟩)
    else (none, ⟨it', u.amt, scr'⟩)

/-- Fuelled iteration of `Unrolled::next`: the list of yielded batches and
the final view state. -/
def unrolledBatches {α : Type} (w : Nat) :
    Nat → Unrolled α → List (List (List α)) × Unrolled α
  | 0, u => ([], u)
  | fuel+1, u =>
    match unrolledNext w u with
    | (none, u') => ([], u')
    | (some b, u') =>
      (b :: (unrolledBatches w fuel u').1, (unrolledBatches w fuel u').2)

end Unrolled

section ListToolkit

variable {α : Type}

lemma load_length_of_le {buf : List α} {off w : Nat} (h : off + w ≤ buf.length) :
    (load buf off w).length = w := by
  simp only [load, List.length_take, List.length_drop]
  omega

lemma load_getD (z : α) (buf : List α) (off w j : Nat) (hj : j < w) :
    (load buf off w).getD j z = buf.getD (off + j) z := by
  simp [load, List.getD_eq_getElem?_getD, List.getElem?_take, hj, List.getElem?_drop]

lemma storeVec_length {buf v : List α} {off : Nat} (h : off + v.length ≤ buf.length) :
    (storeVec buf v off).length = buf.length := by
  simp only [storeVec, List.length_append, List.length_take, List.length_drop]
  omega

lemma storeVec_getD_lo {buf v : List α} {off j : Nat} (z : α)
    (hoff : off ≤ buf.length) (hj : j < off) :
    (storeVec buf v off).getD j z = buf.getD j z := by
  have hlt : j < (buf.take off).length := by simp; omega
  simp only [storeVec, List.getD_eq_getElem?_getD]
  rw [List.getElem?_append, if_pos hlt, List.getElem?_take, if_pos hj]

lemma storeVec_getD_mid {buf v : List α} {off j : Nat} (z : α)
    (hoff : off ≤ buf.length) (h1 : off ≤ j) (h2 : j < off + v.length) :
    (storeVec buf v off).getD j z = v.getD (j - off) z := by
  have hlen : (buf.take off).length = off := by simp; omega
  simp only [storeVec, List.getD_eq_getElem?_getD]
  rw [List.getElem?_append, hlen, if_neg (by omega),
    List.getElem?_append, if_pos (by omega)]

lemma storeVec_getD_hi {buf v : List α} {off j : Nat} (z : α)
    (hin : off + v.length ≤ buf.length) (h : off + v.length ≤ j) :
    (storeVec buf v off).getD j z = buf.getD j z := by
  have hlen : (buf.take off).length = off := by simp; omega
  simp only [storeVec, List.getD_eq_getElem?_getD]
  rw [List.getElem?_append, hlen, if_neg (by omega),
    List.getElem?_append, if_neg (by omega), List.getElem?_drop]
  have he : off + v.length + (j - off - v.length) = j := by omega
  rw [he]

lemma mergePartitioned_length {a b : List α} {n : Nat} (hn : n ≤ a.length) :
    (mergePartitioned a b n).length = n + (b.length - n) := by
  simp only [mergePartitioned, List.length_append, List.length_take, List.length_drop]
  omega

lemma mergePartitioned_getD_lo {a b : List α} {n j : Nat} (z : α)
    (hn : n ≤ a.length) (hj : j < n) :
    (mergePartitioned a b n).getD j z = a.getD j z := by
  have hlt : j < (a.take n).length := by simp; omega
  simp only [mergePartitioned, List.getD_eq_getElem?_getD]
  rw [List.getElem?_append, if_pos hlt, List.getElem?_take, if_pos hj]

lemma mergePartitioned_getD_hi {a b : List α} {n j : Nat} (z : α)
    (hn : n ≤ a.length) (h1 : n ≤ j) :
    (mergePartitioned a b n).getD j z = b.getD j z := by
  have hlen : (a.take n).length = n := by simp; omega
  simp only [mergePartitioned, List.getD_eq_getElem?_getD]
  rw [List.getElem?_append, hlen, if_neg (by omega), List.getElem?_drop]
  have he : n + (j - n) = j := by omega
  rw [he]

lemma getD_set_eq {l : List α} {i : Nat} {x : α} (z : α) (h : i < l.length) :
    (l.set i x).getD i z = x := by
  simp [List.getD_eq_getElem?_getD, List.getElem?_set_self', h]

lemma getD_set_ne {l : List α} {i j : Nat} {x : α} (z : α) (h : i ≠ j) :
    (l.set i x).getD j z = l.getD j z := by
  simp [List.getD_eq_getElem?_getD, List.getElem?_set_ne h]

lemma take_getD {l : List α} {n j : Nat} (z : α) (hj : j < n) :
    (l.take n).getD j z = l.getD j z := by
  simp [List.getD_eq_getElem?_getD, List.getElem?_take, hj]

lemma getD_of_ge {l : List α} {j : Nat} (z : α) (h : l.length ≤ j) :
    l.getD j z = z := by
  simp [List.getD_eq_getElem?_getD, List.getElem?_eq_none h]

lemma getD_irrel {l : List α} {j : Nat} (z z' : α) (h : j < l.length) :
    l.getD j z = l.getD j z' := by
  rw [List.getD_eq_getElem l z h, List.getD_eq_getElem l z' h]

lemma eq_of_length_getD (z : α) {l₁ l₂ : List α} (hlen : l₁.length = l₂.length)
    (h : ∀ j, j < l₁.length → l₁.getD j z = l₂.getD j z) : l₁ = l₂ := by
  apply List.ext_getElem?
  intro i
  by_cases hi : i < l₁.length
  · rw [List.getElem?_eq_getElem hi, List.getElem?_eq_getElem (hlen ▸ hi)]
    have hd := h i hi
    rw [List.getD_eq_getElem l₁ z hi, List.getD_eq_getElem l₂ z (hlen ▸ hi)] at hd
    rw [hd]
  · rw [List.getElem?_eq_none (by omega), List.getElem?_eq_none (by omega)]

lemma foldl_set_length (targets : List Nat) (tf : Nat → Nat) (val : Nat → α) :
    ∀ ret : List α,
      (targets.foldl (fun r i => r.set (tf i) (val i)) ret).length = ret.length := by
  induction targets with
  | nil => intro ret; rfl
  | cons a t ih =>
    intro ret
    rw [List.foldl_cons, ih]
    simp

lemma foldl_set_range'_getD (g : Nat → α) (e : Nat) (z : α) :
    ∀ (cnt pos : Nat) (ret : List α), pos + cnt + e ≤ ret.length → ∀ j,
      ((List.range' pos cnt).foldl (fun r i => r.set (i + e) (g i)) ret).getD j z =
        if pos + e ≤ j ∧ j < pos + cnt + e then g (j - e) else ret.getD j z := by
  intro cnt
  induction cnt with
  | zero =>
    intro pos ret hb j
    rw [if_neg (by omega)]
    rfl
  | succ cnt ih =>
    intro pos ret hb j
    rw [List.range'_succ, List.foldl_cons]
    rw [ih (pos + 1) (ret.set (pos + e) (g pos)) (by simp; omega) j]
    rcases Nat.lt_trichotomy j (pos + e) with hlo | heq | hgt
    · rw [if_neg (by omega), getD_set_ne z (by omega), if_neg (by omega)]
    · subst heq
      rw [if_neg (by omega), getD_set_eq z (by omega), if_pos (by omega)]
      congr 1
      omega
    · by_cases hup : j < pos + 1 + cnt + e
      · rw [if_pos (by omega), if_pos (by omega)]
      · rw [if_neg (by omega), getD_set_ne z (by omega), if_neg (by omega)]

lemma foldl_set_range_getD (g : Nat → α) (off : Nat) (z : α) :
    ∀ (cnt : Nat) (ret : List α), off + cnt ≤ ret.length → ∀ j,
      ((List.range cnt).foldl (fun r i => r.set (off + i) (g i)) ret).getD j z =
        if off ≤ j ∧ j < off + cnt then g (j - off) else ret.getD j z := by
  intro cnt
  induction cnt with
  | zero =>
    intro ret hb j
    rw [if_neg (by omega)]
    rfl
  | succ cnt ih =>
    intro ret hb j
    rw [List.range_succ, List.foldl_append, List.foldl_cons, List.foldl_nil]
    have hfl : ((List.range cnt).foldl (fun r i => r.set (off + i) (g i)) ret).length
        = ret.length := foldl_set_length _ _ _ ret
    by_cases hj : j = off + cnt
    · subst hj
      rw [getD_set_eq z (by rw [hfl]; omega), if_pos (by omega)]
      congr 1
      omega
    · rw [getD_set_ne z (by omega), ih ret (by omega) j]
      rcases Nat.lt_or_ge j off with hlo | hge
      · rw [if_neg (by omega), if_neg (by omega)]
      · by_cases hin : j < off + cnt
        · rw [if_pos (by omega), if_pos (by omega)]
        · rw [if_neg (by omega), if_neg (by omega)]

lemma set_take_succ {l : List α} {i : Nat} {x : α} (h : i < l.length) :
    (l.set i x).take (i + 1) = l.take i ++ [x] := by
  rw [List.set_eq_take_append_cons_drop, if_pos h,
    List.take_append_eq_append_take]
  have hlen : (l.take i).length = i := by simp; omega
  rw [List.take_of_length_le (by omega), hlen]
  have h1 : i + 1 - i = 1 := by omega
  rw [h1]
  rfl

lemma foldl_set_range_getD_zero (g : Nat → α) (z : α) (cnt : Nat) (ret : List α)
    (hb : cnt ≤ ret.length) (j : Nat) :
    ((List.range cnt).foldl (fun r i => r.set i (g i)) ret).getD j z =
      if j < cnt then g j else ret.getD j z := by
  have h := foldl_set_range_getD g 0 z cnt ret (by omega) j
  simpa using h

end ListToolkit

namespace SIMDIter

lemma scalar_len_mk {α : Type} (p : Nat) (data d : List α) :
    scalar_len ⟨p, data, d⟩ = data.length := rfl

lemma next_eq_none {α : Type} {w : Nat} {it : SIMDIter α}
    (h : ¬ it.position + w ≤ it.scalar_len) : next w it = none := by
  simp [next, h]

lemma next_eq_some {α : Type} {w : Nat} {it : SIMDIter α}
    (h : it.position + w ≤ it.scalar_len) :
    next w it = some (load it.data it.position w, it.advance w) := by
  simp [next, h]

/-- Characterization of fuelled forward stepping: from any state, with
enough fuel, `next` succeeds exactly `(scalar_len - position) / w` times,
loading at successive offsets `position + k * w`. -/
lemma runNexts_eq {α : Type} (w : Nat) (hw : 0 < w) :
    ∀ (fuel : Nat) (it : SIMDIter α),
      (it.scalar_len - it.position) / w ≤ fuel →
      runNexts w fuel it =
        ((List.range ((it.scalar_len - it.position) / w)).map
          (fun k => load it.data (it.position + k * w) w),
         ⟨it.position + ((it.scalar_len - it.position) / w) * w, it.data, it.default⟩) := by
  intro fuel
  induction fuel with
  | zero =>
    intro it h
    obtain ⟨p, data, d⟩ := it
    simp only [scalar_len] at h
    have hs : (data.length - p) / w = 0 := Nat.le_zero.mp h
    simp [runNexts, scalar_len, hs]
  | succ n ih =>
    intro it h
    obtain ⟨p, data, d⟩ := it
    simp only [scalar_len] at h
    by_cases hcond : p + w ≤ data.length
    · have hwle : w ≤ data.length - p := by omega
      have hs : (data.length - p) / w = (data.length - p - w) / w + 1 :=
        Nat.div_eq_sub_div hw hwle
      have hnext : next w (⟨p, data, d⟩ : SIMDIter α) =
          some (load data p w, ⟨p + w, data, d⟩) := by
        simp [next, scalar_len, advance, hcond]
      have hsub : data.length - (p + w) = data.length - p - w := by omega
      have hle : (data.length - (p + w)) / w ≤ n := by
        rw [hsub]; omega
      have hih := ih ⟨p + w, data, d⟩ (by simpa [scalar_len] using hle)
      simp only [scalar_len] at hih
      rw [hsub] at hih
      simp only [runNexts, hnext]
      rw [hih]
      simp only [scalar_len, Prod.mk.injEq]
      constructor
      · rw [hs, List.range_succ_eq_map, List.map_cons, List.map_map]
        congr 1
        · simp
        · apply List.map_congr_left
          intro k _
          simp only [Function.comp_apply]
          congr 1
          rw [Nat.succ_mul]
          ring
      · rw [hs]
        congr 1
        rw [Nat.add_mul, Nat.one_mul]
        ring
    · have hs : (data.length - p) / w = 0 :=
        Nat.div_eq_of_lt (by omega)
      have hnone : next w (⟨p, data, d⟩ : SIMDIter α) = none := by
        simp [next, scalar_len, hcond]
      simp [runNexts, hnone, scalar_len, hs]

/-- `runNexts_eq` restated on an explicit iterator state. -/
lemma runNexts_mk {α : Type} (w : Nat) (hw : 0 < w) (fuel p : Nat)
    (data d : List α) (h : (data.length - p) / w ≤ fuel) :
    runNexts w fuel (⟨p, data, d⟩ : SIMDIter α) =
      ((List.range ((data.length - p) / w)).map
        (fun k => load data (p + k * w) w),
       ⟨p + ((data.length - p) / w) * w, data, d⟩) :=
  runNexts_eq w hw fuel ⟨p, data, d⟩ h

lemma endIter_mk_lt {α : Type} [Inhabited α] {w p : Nat} {data d : List α}
    (h : p < data.length) :
    endIter w (⟨p, data, d⟩ : SIMDIter α) =
      some (((if w < data.length then
                mergePartitioned d (load data (data.length - w) w)
                  (w - (data.length - p))
              else
                endFillLoop data (w - (data.length - p)) d p data.length),
             w - (data.length - p)),
            ⟨p + (data.length - p), data, d⟩) := by
  simp only [endIter, scalar_pos, scalar_len, finalize, advance, if_pos h]

lemma endIter_of_ge {α : Type} [Inhabited α] {w : Nat} {it : SIMDIter α}
    (h : ¬ it.position < it.data.length) :
    endIter w it = none := by
  obtain ⟨p, data, d⟩ := it
  simp only [endIter, scalar_pos, scalar_len]
  exact if_neg h

lemma storeVec_load_self {α : Type} {buf : List α} {off w : Nat}
    (h : off + w ≤ buf.length) :
    storeVec buf (load buf off w) off = buf := by
  unfold storeVec
  rw [load_length_of_le h]
  have hdrop : buf.drop (off + w) = (buf.drop off).drop w := by
    rw [List.drop_drop, Nat.add_comm]
  rw [hdrop]
  unfold load
  rw [List.take_append_drop, List.take_append_drop]

lemma endFillLoop_length {α : Type} [Inhabited α]
    (data ret : List α) (e pos len : Nat) :
    (endFillLoop data e ret pos len).length = ret.length := by
  simp only [endFillLoop, replaceLane]
  exact foldl_set_length _ _ _ ret

lemma endFillLoop_getD {α : Type} [Inhabited α] (data ret : List α)
    (e pos len : Nat) (z : α) (hb : pos + (len - pos) + e ≤ ret.length) (j : Nat) :
    (endFillLoop data e ret pos len).getD j z =
      if pos + e ≤ j ∧ j < pos + (len - pos) + e then
        data.getD (j - e) Inhabited.default
      else ret.getD j z := by
  have hf := foldl_set_range'_getD (fun i => data.getD i Inhabited.default)
    e z (len - pos) pos ret hb j
  simpa [endFillLoop, replaceLane] using hf

/-- Characterization of the fuelled `simd_for_each` while-loop with the
identity mutator: the buffer is unchanged, the cursor advances by
`((len - off) / w) * w`, and the last stored vector is the last full load. -/
lemma forEachLoop_id_spec {α : Type} (w : Nat) (hw : 0 < w) (B d : List α) :
    ∀ (fuel off : Nat) (lastvec : List α), (B.length - off) / w ≤ fuel →
    forEachLoop w (fun v => v) fuel (⟨off, B, d⟩ : SIMDIter α) lastvec =
      (⟨off + ((B.length - off) / w) * w, B, d⟩,
       if (B.length - off) / w = 0 then lastvec
       else load B (off + ((B.length - off) / w - 1) * w) w) := by
  intro fuel
  induction fuel with
  | zero =>
    intro off lastvec h
    have hs : (B.length - off) / w = 0 := Nat.le_zero.mp h
    simp [forEachLoop, hs]
  | succ m ih =>
    intro off lastvec h
    by_cases hcond : off + w ≤ B.length
    · have hwle : w ≤ B.length - off := by omega
      have hs : (B.length - off) / w = (B.length - off - w) / w + 1 :=
        Nat.div_eq_sub_div hw hwle
      have hnext : next w (⟨off, B, d⟩ : SIMDIter α) =
          some (load B off w, ⟨off + w, B, d⟩) := by
        simp [next, scalar_len, advance, hcond]
      have hsub : B.length - (off + w) = B.length - off - w := by omega
      have hself : storeVec B (load B off w) (off + w - w) = B := by
        have he : off + w - w = off := by omega
        rw [he]
        exact storeVec_load_self hcond
      have hle2 : (B.length - (off + w)) / w ≤ m := by
        rw [hsub]
        omega
      simp only [forEachLoop, hnext]
      rw [hself, ih (off + w) (load B off w) hle2]
      rw [hsub, hs]
      simp only [Prod.mk.injEq, SIMDIter.mk.injEq, and_true]
      refine ⟨?_, ?_⟩
      · rw [Nat.add_mul, Nat.one_mul]
        ring
      · rw [if_neg (Nat.succ_ne_zero _), Nat.add_sub_cancel]
        by_cases hz : (B.length - off - w) / w = 0
        · rw [if_pos hz, hz]
          simp
        · rw [if_neg hz]
          congr 1
          have h1 : (B.length - off - w) / w - 1 + 1 = (B.length - off - w) / w :=
            Nat.sub_add_cancel (Nat.one_le_iff_ne_zero.mpr hz)
          have hsw : ((B.length - off - w) / w - 1) * w + w
              = ((B.length - off - w) / w) * w := by
            calc ((B.length - off - w) / w - 1) * w + w
                = ((B.length - off - w) / w - 1 + 1) * w := by
                  rw [Nat.add_mul, Nat.one_mul]
            _ = ((B.length - off - w) / w) * w := by rw [h1]
          omega
    · have hs : (B.length - off) / w = 0 := Nat.div_eq_of_lt (by omega)
      have hnone : next w (⟨off, B, d⟩ : SIMDIter α) = none := by
        simp [next, scalar_len, hcond]
      simp [forEachLoop, hnone, hs]

/-- Characterization of the fuelled `scalar_collect` while-loop: the final
offset and cursor advance by `((len - off) / w) * w`, the destination holds
the buffer's scalars on the stored interval, and the last stored vector is
the last full load. -/
lemma collectLoop_spec {α : Type} (w : Nat) (hw : 0 < w) (B d : List α) :
    ∀ (fuel off : Nat) (ret lastvec : List α),
      (B.length - off) / w ≤ fuel →
      off + ((B.length - off) / w) * w ≤ ret.length →
      (collectLoop w fuel (⟨off, B, d⟩ : SIMDIter α) ret off lastvec).2.1
          = off + ((B.length - off) / w) * w ∧
      (collectLoop w fuel (⟨off, B, d⟩ : SIMDIter α) ret off lastvec).2.2.2
          = ⟨off + ((B.length - off) / w) * w, B, d⟩ ∧
      (collectLoop w fuel (⟨off, B, d⟩ : SIMDIter α) ret off lastvec).1.length
          = ret.length ∧
      (∀ z j, (collectLoop w fuel (⟨off, B, d⟩ : SIMDIter α) ret off lastvec).1.getD j z
          = if off ≤ j ∧ j < off + ((B.length - off) / w) * w then B.getD j z
            else ret.getD j z) ∧
      (collectLoop w fuel (⟨off, B, d⟩ : SIMDIter α) ret off lastvec).2.2.1
          = if (B.length - off) / w = 0 then lastvec
            else load B (off + ((B.length - off) / w - 1) * w) w := by
  intro fuel
  induction fuel with
  | zero =>
    intro off ret lastvec h hb
    have hs : (B.length - off) / w = 0 := Nat.le_zero.mp h
    refine ⟨by simp [collectLoop, hs], by simp [collectLoop, hs],
      by simp [collectLoop], ?_, by simp [collectLoop, hs]⟩
    intro z j
    rw [hs]
    simp only [collectLoop]
    rw [if_neg (by omega)]
  | succ m ih =>
    intro off ret lastvec h hb
    by_cases hcond : off + w ≤ B.length
    · have hwle : w ≤ B.length - off := by omega
      have hs : (B.length - off) / w = (B.length - off - w) / w + 1 :=
        Nat.div_eq_sub_div hw hwle
      have hnext : next w (⟨off, B, d⟩ : SIMDIter α) =
          some (load B off w, ⟨off + w, B, d⟩) := by
        simp [next, scalar_len, advance, hcond]
      have hsub : B.length - (off + w) = B.length - off - w := by omega
      have hle2 : (B.length - (off + w)) / w ≤ m := by
        rw [hsub]
        omega
      have hsw : off + w + ((B.length - off - w) / w) * w
          = off + ((B.length - off) / w) * w := by
        rw [hs, Nat.add_mul, Nat.one_mul]
        ring
      have hloadlen : (load B off w).length = w := load_length_of_le hcond
      have hretlen : (storeVec ret (load B off w) off).length = ret.length :=
        storeVec_length (by rw [hloadlen]; omega)
      have hb2 : (off + w) + ((B.length - (off + w)) / w) * w
          ≤ (storeVec ret (load B off w) off).length := by
        rw [hretlen, hsub]
        omega
      obtain ⟨ih1, ih2, ih3, ih4, ih5⟩ :=
        ih (off + w) (storeVec ret (load B off w) off) (load B off w) hle2 hb2
      simp only [collectLoop, hnext]
      refine ⟨?_, ?_, ?_, ?_, ?_⟩
      · rw [ih1, hsub]
        exact hsw
      · rw [ih2, hsub, hsw]
      · rw [ih3, hretlen]
      · intro z j
        rw [ih4 z j, hsub]
        rcases Nat.lt_or_ge j off with hlo | hge
        · rw [if_neg (by omega),
            storeVec_getD_lo z (by omega : off ≤ ret.length) hlo,
            if_neg (by omega)]
        · by_cases hmid : j < off + w
          · rw [if_neg (by omega),
              storeVec_getD_mid z (by omega : off ≤ ret.length) hge
                (by rw [hloadlen]; omega),
              load_getD z B off w (j - off) (by omega)]
            have he : off + (j - off) = j := by omega
            rw [he, if_pos (by omega)]
          · by_cases hin : j < off + w + ((B.length - off - w) / w) * w
            · rw [if_pos (by omega), if_pos (by omega)]
            · rw [if_neg (by omega),
                storeVec_getD_hi z (by rw [hloadlen]; omega)
                  (by rw [hloadlen]; omega),
                if_neg (by omega)]
      · rw [ih5, hsub, hs]
        rw [if_neg (Nat.succ_ne_zero _), Nat.add_sub_cancel]
        by_cases hz : (B.length - off - w) / w = 0
        · rw [if_pos hz, hz]
          simp
        · rw [if_neg hz]
          congr 1
          have h1 : (B.length - off - w) / w - 1 + 1 = (B.length - off - w) / w :=
            Nat.sub_add_cancel (Nat.one_le_iff_ne_zero.mpr hz)
          have hsw2 : ((B.length - off - w) / w - 1) * w + w
              = ((B.length - off - w) / w) * w := by
            calc ((B.length - off - w) / w - 1) * w + w
                = ((B.length - off - w) / w - 1 + 1) * w := by
                  rw [Nat.add_mul, Nat.one_mul]
            _ = ((B.length - off - w) / w) * w := by rw [h1]
          omega
    · have hs : (B.length - off) / w = 0 := Nat.div_eq_of_lt (by omega)
      have hnone : next w (⟨off, B, d⟩ : SIMDIter α) = none := by
        simp [next, scalar_len, hcond]
      refine ⟨by simp [collectLoop, hnone, hs], by simp [collectLoop, hnone, hs],
        by simp [collectLoop, hnone], ?_, by simp [collectLoop, hnone, hs]⟩
      intro z j
      rw [hs]
      simp only [collectLoop, hnone]
      rw [if_neg (by omega)]

end SIMDIter

open SIMDIter

/-- C1: over a buffer whose length `L` is not a multiple of the width `w`,
forward stepping yields exactly `L / w` full vectors loaded at offsets
`0, w, 2w, ...`; afterwards `end()` returns `Some((v, w - L % w))` and
finalizes the cursor to the scalar length. -/
theorem c1_forward_stepping_and_tail {α : Type} [Inhabited α]
    (B d : List α) (w fuel : Nat) (hw : 0 < w)
    (hnd : B.length % w ≠ 0) (hfuel : B.length / w ≤ fuel) :
    (runNexts w fuel (simd_iter B d)).1 =
      (List.range (B.length / w)).map (fun k => load B (k * w) w) ∧
    ∃ v it2, endIter w (runNexts w fuel (simd_iter B d)).2 =
        some ((v, w - B.length % w), it2) ∧
      it2.scalar_pos = it2.scalar_len := by
  have hrun := runNexts_mk w hw fuel 0 B d (by simpa using hfuel)
  simp only [Nat.sub_zero, Nat.zero_add] at hrun
  have hdm := Nat.div_add_mod' B.length w
  have hle := Nat.div_mul_le_self B.length w
  have hlt : B.length / w * w < B.length := by omega
  have hmod : B.length - B.length / w * w = B.length % w := by omega
  refine ⟨?_, ?_⟩
  · show (runNexts w fuel (⟨0, B, d⟩ : SIMDIter α)).1 = _
    rw [hrun]
  · show ∃ v it2, endIter w (runNexts w fuel (⟨0, B, d⟩ : SIMDIter α)).2 =
        some ((v, w - B.length % w), it2) ∧ it2.scalar_pos = it2.scalar_len
    rw [hrun]
    refine ⟨(if w < B.length then
               mergePartitioned d (load B (B.length - w) w)
                 (w - (B.length - B.length / w * w))
             else
               endFillLoop B (w - (B.length - B.length / w * w)) d
                 (B.length / w * w) B.length),
            ⟨B.length / w * w + (B.length - B.length / w * w), B, d⟩, ?_, ?_⟩
    · show endIter w (⟨B.length / w * w, B, d⟩ : SIMDIter α) = _
      rw [endIter_mk_lt hlt, hmod]
    · show B.length / w * w + (B.length - B.length / w * w) = B.length
      omega

/-- Witness for C1 at the concrete buffer `[1,2,3,4,5]` with width 4. -/
theorem c1_forward_stepping_and_tail_witness :
    (runNexts 4 2 (simd_iter ([1,2,3,4,5] : List Nat) [0,0,0,0])).1 =
      (List.range ([1,2,3,4,5].length / 4)).map
        (fun k => load ([1,2,3,4,5] : List Nat) (k * 4) 4) ∧
    ∃ v it2, endIter 4 (runNexts 4 2 (simd_iter ([1,2,3,4,5] : List Nat) [0,0,0,0])).2 =
        some ((v, 4 - [1,2,3,4,5].length % 4), it2) ∧
      it2.scalar_pos = it2.scalar_len :=
  c1_forward_stepping_and_tail [1,2,3,4,5] [0,0,0,0] 4 2
    (by decide) (by decide) (by decide)

/-- C3: over a buffer whose length is an exact multiple of the width
(including the empty buffer), forward stepping yields exactly `L / w`
vectors, `end()` returns nothing, and on the empty buffer `next` returns
nothing already on the first call. -/
theorem c3_exact_multiple_no_tail {α : Type} [Inhabited α]
    (B d : List α) (w fuel : Nat) (hw : 0 < w)
    (hd : w ∣ B.length) (hfuel : B.length / w ≤ fuel) :
    (runNexts w fuel (simd_iter B d)).1.length = B.length / w ∧
    endIter w (runNexts w fuel (simd_iter B d)).2 = none ∧
    next w (simd_iter ([] : List α) d) = none := by
  have hrun := runNexts_mk w hw fuel 0 B d (by simpa using hfuel)
  simp only [Nat.sub_zero, Nat.zero_add] at hrun
  have hcancel : B.length / w * w = B.length := Nat.div_mul_cancel hd
  refine ⟨?_, ?_, ?_⟩
  · show (runNexts w fuel (⟨0, B, d⟩ : SIMDIter α)).1.length = _
    rw [hrun]
    simp
  · show endIter w (runNexts w fuel (⟨0, B, d⟩ : SIMDIter α)).2 = none
    rw [hrun]
    exact endIter_of_ge (by simp [hcancel])
  · simp [next, simd_iter, scalar_len, advance]
    omega

/-- Witness for C3 at the concrete buffer `[1,2,3,4,5,6,7,8]` with width 4. -/
theorem c3_exact_multiple_no_tail_witness :
    (runNexts 4 2 (simd_iter ([1,2,3,4,5,6,7,8] : List Nat) [0,0,0,0])).1.length =
      [1,2,3,4,5,6,7,8].length / 4 ∧
    endIter 4 (runNexts 4 2 (simd_iter ([1,2,3,4,5,6,7,8] : List Nat) [0,0,0,0])).2 = none ∧
    next 4 (simd_iter ([] : List Nat) [0,0,0,0]) = none :=
  c3_exact_multiple_no_tail [1,2,3,4,5,6,7,8] [0,0,0,0] 4 2
    (by decide) (by decide) (by decide)

/-- C10: once the cursor has reached the scalar length, `next` returns
nothing, `end` returns nothing, and `simd_reduce start f` returns `start`
unchanged: driving the producer past exhaustion is a no-op. -/
theorem c10_post_exhaustion_noop {α β : Type} [Inhabited α]
    (w fuel : Nat) (it : SIMDIter α) (start : β) (f : β → List α → β)
    (hw : 0 < w) (hpos : it.position = it.scalar_len) :
    next w it = none ∧ endIter w it = none ∧
    (simd_reduce w fuel start f it).1 = start := by
  have hnone : next w it = none := next_eq_none (by omega)
  have hend : endIter w it = none :=
    endIter_of_ge (by simp only [scalar_len] at hpos; omega)
  have hloop : reduceLoop w f fuel start it = (start, it) := by
    cases fuel with
    | zero => rfl
    | succ n => simp [reduceLoop, hnone]
  refine ⟨hnone, hend, ?_⟩
  simp [simd_reduce, hloop, hend]

/-- C7: `simd_for_each` with the identity mutator leaves an array-backed
buffer unchanged, for every scalar length (the re-store tail path and the
elementwise tail path alike), and finalizes the cursor. -/
theorem c7_for_each_identity {α : Type} [Inhabited α] (B d : List α)
    (w fuel : Nat) (hw : 0 < w) (hd : d.length = w)
    (hfuel : B.length / w ≤ fuel) :
    simd_for_each w fuel (fun v => v) (simd_iter B d) = ⟨B.length, B, d⟩ := by
  have hloop := forEachLoop_id_spec w hw B d fuel 0 (vecDefault α w)
    (by simpa using hfuel)
  simp only [Nat.sub_zero, Nat.zero_add] at hloop
  have hdm := Nat.div_add_mod' B.length w
  have hle := Nat.div_mul_le_self B.length w
  show simd_for_each w fuel (fun v => v) (⟨0, B, d⟩ : SIMDIter α) = _
  by_cases hnd : B.length % w = 0
  · -- exact multiple: no tail
    have hq : B.length / w * w = B.length := by omega
    rw [hq] at hloop
    simp only [simd_for_each, hloop]
    rw [endIter_of_ge (by simp [scalar_len])]
  · have hlt : B.length / w * w < B.length := by omega
    have hrlt : B.length % w < w := Nat.mod_lt _ hw
    by_cases hwL : w < B.length
    · -- a full vector fits: double vector store tail path
      have hq1 : 0 < B.length / w := Nat.div_pos (le_of_lt hwL) hw
      have hq1w : w ≤ B.length / w * w := Nat.le_mul_of_pos_left w hq1
      simp only [simd_for_each, hloop]
      rw [endIter_mk_lt hlt]
      simp only [scalar_len, if_pos hwL, if_neg (Nat.pos_iff_ne_zero.mp hq1)]
      have hpos : B.length / w * w + (B.length - B.length / w * w) = B.length := by
        omega
      rw [hpos]
      have hoff1 : B.length / w * w - (w - (B.length - B.length / w * w))
          = B.length - w := by omega
      have hoff2 : B.length / w * w - w = (B.length / w - 1) * w := by
        rw [Nat.sub_mul, Nat.one_mul]
      have hqsum : (B.length / w - 1) * w + w = B.length / w * w := by
        calc (B.length / w - 1) * w + w = (B.length / w - 1 + 1) * w := by
              rw [Nat.add_mul, Nat.one_mul]
        _ = B.length / w * w := by rw [Nat.sub_add_cancel hq1]
      rw [hoff1, hoff2]
      have hllen : (load B ((B.length / w - 1) * w) w).length = w :=
        load_length_of_le (by omega)
      have hn : w - (B.length - B.length / w * w) ≤ d.length := by omega
      have hplen : (mergePartitioned d (load B (B.length - w) w)
          (w - (B.length - B.length / w * w))).length = w := by
        rw [mergePartitioned_length hn, load_length_of_le (by omega : B.length - w + w ≤ B.length)]
        omega
      have hinlen : (storeVec B
          (mergePartitioned d (load B (B.length - w) w)
            (w - (B.length - B.length / w * w))) (B.length - w)).length
          = B.length := storeVec_length (by rw [hplen]; omega)
      simp only [SIMDIter.mk.injEq, and_true, true_and]
      apply eq_of_length_getD (Inhabited.default : α)
      · rw [storeVec_length (by rw [hllen, hinlen]; omega), hinlen]
      · intro j hj
        rw [storeVec_length (by rw [hllen, hinlen]; omega), hinlen] at hj
        rcases Nat.lt_or_ge j ((B.length / w - 1) * w) with h1 | h1
        · rw [storeVec_getD_lo _ (by rw [hinlen]; omega) h1,
            storeVec_getD_lo _ (by omega) (by omega)]
        · by_cases h2 : j < (B.length / w - 1) * w + w
          · rw [storeVec_getD_mid _ (by rw [hinlen]; omega) h1 (by rw [hllen]; omega),
              load_getD _ B _ w _ (by omega)]
            have he : (B.length / w - 1) * w + (j - (B.length / w - 1) * w) = j := by
              omega
            rw [he]
          · rw [storeVec_getD_hi _ (by rw [hllen, hinlen]; omega)
                (by rw [hllen]; omega),
              storeVec_getD_mid _ (by omega) (by omega) (by rw [hplen]; omega),
              mergePartitioned_getD_hi _ hn (by omega),
              load_getD _ B _ w _ (by omega)]
            have he : B.length - w + (j - (B.length - w)) = j := by omega
            rw [he]
    · -- no full vector fits: elementwise tail path
      have hLw : B.length < w := by
        have : B.length ≠ w := fun hc => hnd (by rw [hc, Nat.mod_self])
        omega
      have hLpos : 0 < B.length := by
        have : B.length ≠ 0 := fun hc => hnd (by rw [hc]; simp)
        omega
      have hq0 : B.length / w = 0 := Nat.div_eq_of_lt hLw
      rw [hq0] at hloop
      simp only [Nat.zero_mul, Nat.add_zero, if_pos rfl] at hloop
      simp only [simd_for_each, hloop]
      rw [endIter_mk_lt (by omega : 0 < B.length)]
      simp only [Nat.sub_zero, Nat.zero_add, scalar_len, if_neg hwL]
      simp only [SIMDIter.mk.injEq, and_true, true_and]
      have hwn : w - (w - B.length) = B.length := by omega
      rw [hwn]
      apply eq_of_length_getD (Inhabited.default : α)
      · exact foldl_set_length _ _ _ B
      · intro j hj
        rw [foldl_set_length _ _ _ B] at hj
        have hfold := foldl_set_range_getD
          (fun i => extractLane (endFillLoop B (w - B.length) d 0 B.length)
            (i + (w - B.length)))
          0 (Inhabited.default : α) B.length B (by omega) j
        simp only [Nat.zero_add] at hfold
        rw [hfold, if_pos (by omega)]
        have he : j - 0 = j := by omega
        rw [he]
        unfold extractLane
        rw [endFillLoop_getD B d (w - B.length) 0 B.length _ (by omega) (j + (w - B.length)),
          if_pos (by omega)]
        have he2 : j + (w - B.length) - (w - B.length) = j := by omega
        rw [he2]

set_option maxHeartbeats 2000000 in
/-- C2: round-trip law: `scalar_collect` on an array-backed producer over
any buffer `B` (any padding vector of width `w`, any initial contents of the
allocation) returns exactly `B`: same length, equal element-for-element, no
padding lane leaking into the result. -/
theorem c2_scalar_collect_roundtrip {α : Type} [Inhabited α]
    (B d uninit : List α) (w fuel : Nat) (hw : 0 < w) (hd : d.length = w)
    (hu : uninit.length = (B.length / w + 1) * w) (hfuel : B.length / w ≤ fuel) :
    scalar_collect w fuel uninit (simd_iter B d) = B := by
  have hu' : uninit.length = B.length / w * w + w := by
    rw [hu, Nat.add_mul, Nat.one_mul]
  have hdm := Nat.div_add_mod' B.length w
  have hle := Nat.div_mul_le_self B.length w
  obtain ⟨c1, c2, c3, c4, c5⟩ := collectLoop_spec w hw B d fuel 0 uninit
    (vecDefault α w) (by simpa using hfuel)
    (by rw [Nat.sub_zero, Nat.zero_add, hu']; omega)
  simp only [Nat.sub_zero, Nat.zero_add] at c1 c2 c3 c4 c5
  rcases hre : collectLoop w fuel (⟨0, B, d⟩ : SIMDIter α) uninit 0 (vecDefault α w)
    with ⟨ret, offset, lastvec, it1⟩
  rw [hre] at c1 c2 c3 c4 c5
  dsimp only at c1 c2 c3 c4 c5
  subst c1 c2 c5
  show scalar_collect w fuel uninit (⟨0, B, d⟩ : SIMDIter α) = B
  simp only [scalar_collect, hre]
  by_cases hnd : B.length % w = 0
  · -- exact multiple: end() is none, truncate to len * width
    have hq : B.length / w * w = B.length := by omega
    rw [endIter_of_ge (by simp [hq])]
    apply eq_of_length_getD (Inhabited.default : α)
    · simp only [List.length_take, c3]
      omega
    · intro j hj
      simp only [List.length_take, c3] at hj
      rw [take_getD _ (by omega), c4 _ j, if_pos (by omega)]
  · have hlt : B.length / w * w < B.length := by omega
    have hrlt : B.length % w < w := Nat.mod_lt _ hw
    rw [endIter_mk_lt (by omega : B.length / w * w < B.length)]
    by_cases hwL : w < B.length
    · -- at least one full vector was stored: double-store patch path
      have hq1 : 0 < B.length / w := Nat.div_pos (le_of_lt hwL) hw
      have hq1w : w ≤ B.length / w * w := Nat.le_mul_of_pos_left w hq1
      simp only [scalar_len, if_pos hwL, if_pos (by omega : 0 < B.length / w * w),
        if_neg (Nat.pos_iff_ne_zero.mp hq1)]
      have hoff1 : B.length / w * w - (w - (B.length - B.length / w * w))
          = B.length - w := by omega
      have hoff2 : B.length / w * w - w = (B.length / w - 1) * w := by
        rw [Nat.sub_mul, Nat.one_mul]
      have hqsum : (B.length / w - 1) * w + w = B.length / w * w := by
        calc (B.length / w - 1) * w + w = (B.length / w - 1 + 1) * w := by
              rw [Nat.add_mul, Nat.one_mul]
        _ = B.length / w * w := by rw [Nat.sub_add_cancel hq1]
      have htake : w + B.length / w * w - (w - (B.length - B.length / w * w))
          = B.length := by omega
      rw [hoff1, hoff2, htake]
      have hllen : (load B ((B.length / w - 1) * w) w).length = w :=
        load_length_of_le (by omega)
      have hn : w - (B.length - B.length / w * w) ≤ d.length := by omega
      have hplen : (mergePartitioned d (load B (B.length - w) w)
          (w - (B.length - B.length / w * w))).length = w := by
        rw [mergePartitioned_length hn,
          load_length_of_le (by omega : B.length - w + w ≤ B.length)]
        omega
      have hinlen : (storeVec ret
          (mergePartitioned d (load B (B.length - w) w)
            (w - (B.length - B.length / w * w))) (B.length - w)).length
          = ret.length := storeVec_length (by rw [hplen]; omega)
      have houtlen : (storeVec (storeVec ret
          (mergePartitioned d (load B (B.length - w) w)
            (w - (B.length - B.length / w * w))) (B.length - w))
          (load B ((B.length / w - 1) * w) w) ((B.length / w - 1) * w)).length
          = ret.length := by
        rw [storeVec_length (by rw [hllen, hinlen]; omega), hinlen]
      apply eq_of_length_getD (Inhabited.default : α)
      · simp only [List.length_take, houtlen]
        omega
      · intro j hj
        simp only [List.length_take, houtlen] at hj
        rw [take_getD _ (by omega)]
        rcases Nat.lt_or_ge j ((B.length / w - 1) * w) with h1 | h1
        · rw [storeVec_getD_lo _ (by rw [hinlen]; omega) h1,
            storeVec_getD_lo _ (by omega) (by omega),
            c4 _ j, if_pos (by omega)]
        · by_cases h2 : j < (B.length / w - 1) * w + w
          · rw [storeVec_getD_mid _ (by rw [hinlen]; omega) h1 (by rw [hllen]; omega),
              load_getD _ B _ w _ (by omega)]
            have he : (B.length / w - 1) * w + (j - (B.length / w - 1) * w) = j := by
              omega
            rw [he]
          · rw [storeVec_getD_hi _ (by rw [hllen, hinlen]; omega)
                (by rw [hllen]; omega),
              storeVec_getD_mid _ (by omega) (by omega) (by rw [hplen]; omega),
              mergePartitioned_getD_hi _ hn (by omega),
              load_getD _ B _ w _ (by omega)]
            have he : B.length - w + (j - (B.length - w)) = j := by omega
            rw [he]
    · -- no full vector fits: elementwise store path
      have hLw : B.length < w := by
        have : B.length ≠ w := fun hc => hnd (by rw [hc, Nat.mod_self])
        omega
      have hLpos : 0 < B.length := by
        have : B.length ≠ 0 := fun hc => hnd (by rw [hc]; simp)
        omega
      have hq0 : B.length / w = 0 := Nat.div_eq_of_lt hLw
      rw [hq0]
      simp only [scalar_len, Nat.zero_mul, Nat.sub_zero, Nat.add_zero, Nat.zero_add,
        if_neg hwL, if_neg (by omega : ¬ 0 < 0)]
      have huw : uninit.length = w := by
        rw [hu, hq0, Nat.zero_add, Nat.one_mul]
      have hwn : w - (w - B.length) = B.length := by omega
      rw [hwn]
      apply eq_of_length_getD (Inhabited.default : α)
      · simp only [List.length_take]
        rw [foldl_set_length (List.range B.length) (fun i => i)
          (fun i => extractLane (endFillLoop B (w - B.length) d 0 B.length)
            (i + (w - B.length))) ret]
        omega
      · intro j hj
        simp only [List.length_take] at hj
        rw [take_getD _ (by omega)]
        rw [foldl_set_range_getD_zero
          (fun i => extractLane (endFillLoop B (w - B.length) d 0 B.length)
            (i + (w - B.length)))
          (Inhabited.default : α) B.length ret (by omega) j]
        rw [if_pos (by omega)]
        unfold extractLane
        rw [endFillLoop_getD B d (w - B.length) 0 B.length _ (by omega)
            (j + (w - B.length)),
          if_pos (by omega)]
        have he2 : j + (w - B.length) - (w - B.length) = j := by omega
        rw [he2]

/-- Witness for C2 at the buffer `[1,2,3,4,5]`, width 4, arbitrary junk in
the fresh allocation. -/
theorem c2_scalar_collect_roundtrip_witness :
    scalar_collect 4 2 ([9,9,9,9,9,9,9,9] : List Nat)
      (simd_iter ([1,2,3,4,5] : List Nat) [0,0,0,0]) = [1,2,3,4,5] :=
  c2_scalar_collect_roundtrip [1,2,3,4,5] [0,0,0,0] [9,9,9,9,9,9,9,9] 4 2
    (by decide) (by decide) (by decide) (by decide)

/-- Witness for C7 at `[1,2,3,4,5]` (double-store tail) through the
general statement; the hypotheses are discharged concretely. -/
theorem c7_for_each_identity_witness :
    simd_for_each 4 2 (fun v => v) (simd_iter ([1,2,3,4,5] : List Nat) [0,0,0,0]) =
      ⟨[1,2,3,4,5].length, [1,2,3,4,5], [0,0,0,0]⟩ :=
  c7_for_each_identity [1,2,3,4,5] [0,0,0,0] 4 2 (by decide) (by decide) (by decide)

/-- C8: frame property of the elementwise tail path: when the buffer is
shorter than the vector width, `simd_for_each` issues scalar stores exactly
at indices `0, 1, ..., scalar_len - 1` — never at or beyond the logical
length, and only for the populated (non-padding) lanes. -/
theorem c8_for_each_small_buffer_frame {α : Type} [Inhabited α]
    (B d : List α) (w fuel : Nat) (f : List α → List α)
    (hLw : B.length < w) :
    (forEachTailStores w fuel f (simd_iter B d)).map Prod.fst
      = List.range B.length := by
  have hnone : next w (⟨0, B, d⟩ : SIMDIter α) = none :=
    next_eq_none (by simp only [scalar_len]; omega)
  have hloop : forEachLoop w f fuel (⟨0, B, d⟩ : SIMDIter α) (vecDefault α w)
      = (⟨0, B, d⟩, vecDefault α w) := by
    cases fuel with
    | zero => rfl
    | succ m => simp [forEachLoop, hnone]
  show (forEachTailStores w fuel f (⟨0, B, d⟩ : SIMDIter α)).map Prod.fst = _
  simp only [forEachTailStores, hloop]
  by_cases hL0 : B.length = 0
  · have hB : B = [] := List.length_eq_zero.mp hL0
    subst hB
    rfl
  · rw [endIter_mk_lt (by omega : 0 < B.length)]
    simp only [scalar_len, Nat.sub_zero, Nat.zero_add,
      if_neg (by omega : ¬ w < B.length)]
    have hwn : w - (w - B.length) = B.length := by omega
    rw [hwn, List.map_map]
    exact List.map_id _

/-- C4 evidence: `scalar_collect_all` calls `set_len(self.len())` — the
*vector* count — before filling, so on the buffer `[1,2,3,4,5]` with width
4 it returns the single-element Vec `[1]`; truncating the result to the
buffer's length does not reproduce the buffer, contradicting the all-variant
law (and the function's own documentation, which promises all elements
in order plus possibly redundant trailing ones). -/
theorem c4_collect_all_set_len_bug :
    scalar_collect_all 4 2 ([7,7,7,7,7,7,7,7] : List Nat)
      (simd_iter ([1,2,3,4,5] : List Nat) [0,0,0,0]) = [1] ∧
    (scalar_collect_all 4 2 ([7,7,7,7,7,7,7,7] : List Nat)
      (simd_iter ([1,2,3,4,5] : List Nat) [0,0,0,0])).take 5 ≠ [1,2,3,4,5] := by
  constructor
  · rfl
  · decide

/-- C6 evidence: the scalar-sequence adapter measures `scalar_len()` by the
*remaining* inner length, and its `end` returns the final loop offset
rather than the empty-lane count.  Concretely with width 4: over `[1..8]`
forward stepping yields 1 vector, not `8 / 4 = 2`; over `[1,2,3,4,5]`,
after the single `next` the tail call returns `none`, dropping the scalar
`5`; over `[1,2,3]` the tail call reports empty-lane count 0 instead of
`4 - 3 = 1`. -/
theorem c6_adapter_tail_bug :
    (SIMDAdapter.adapterRun 4 3
      (simd_iter_adapter ([1,2,3,4,5,6,7,8] : List Nat) [0,0,0,0])).1.length = 1 ∧
    (SIMDAdapter.adapterRun 4 3
      (simd_iter_adapter ([1,2,3,4,5] : List Nat) [0,0,0,0])).1 = [[1,2,3,4]] ∧
    SIMDAdapter.adapterEnd 4 ((SIMDAdapter.adapterRun 4 3
      (simd_iter_adapter ([1,2,3,4,5] : List Nat) [0,0,0,0])).2) = none ∧
    (SIMDAdapter.adapterEnd 4
      (simd_iter_adapter ([1,2,3] : List Nat) [0,0,0,0])).map
      (fun r => r.1.2) = some 0 := by
  refine ⟨rfl, rfl, rfl, rfl⟩

/-- C5: the width-changing map's tail delegates to the inner producer's
tail, applies the function once to the tail vector, and rescales the
empty-lane count to `n * inner_size / outer_size`; `next` applies the
function to every full vector. -/
theorem c5_map_tail_scaling {ι γ δ : Type}
    (endI : ι → Option ((γ × Nat) × ι)) (nextI : ι → Option (γ × ι))
    (inSize outSize : Nat) (f : γ → δ) (it it' : ι) (v : γ) (n : Nat)
    (hend : endI it = some ((v, n), it'))
    (hdvd : outSize ∣ n * inSize) :
    SIMDMap.mapEnd endI inSize outSize (⟨it, f⟩ : SIMDMap ι γ δ)
      = some ((f v, n * inSize / outSize), ⟨it', f⟩) ∧
    (∀ (u : ι) (x : γ) (u' : ι), nextI u = some (x, u') →
      SIMDMap.mapNext nextI (⟨u, f⟩ : SIMDMap ι γ δ) = some (f x, ⟨u', f⟩)) ∧
    (∀ u : ι, nextI u = none →
      SIMDMap.mapNext nextI (⟨u, f⟩ : SIMDMap ι γ δ) = none) := by
  refine ⟨?_, ?_, ?_⟩
  · simp [SIMDMap.mapEnd, hend]
  · intro u x u' h
    simp [SIMDMap.mapNext, h]
  · intro u h
    simp [SIMDMap.mapNext, h]

/-- Witness for C5: the inner producer is the real array-backed producer
over `[1,2,3,4,5]` with width 4 (tail empty count 3), scalar sizes 8 → 4,
so the mapped tail's empty count is `3 * 8 / 4 = 6`. -/
theorem c5_map_tail_scaling_witness :
    SIMDMap.mapEnd (endIter 4) 8 4
      (⟨⟨4, [1,2,3,4,5], [0,0,0,0]⟩, fun v => v ++ v⟩ :
        SIMDMap (SIMDIter Nat) (List Nat) (List Nat))
      = some ((([0,0,0,5] : List Nat) ++ [0,0,0,5], 3 * 8 / 4),
              ⟨⟨5, [1,2,3,4,5], [0,0,0,0]⟩, fun v => v ++ v⟩) ∧
    (∀ (u : SIMDIter Nat) (x : List Nat) (u' : SIMDIter Nat),
      next 4 u = some (x, u') →
      SIMDMap.mapNext (next 4)
        (⟨u, fun v => v ++ v⟩ : SIMDMap (SIMDIter Nat) (List Nat) (List Nat))
        = some (x ++ x, ⟨u', fun v => v ++ v⟩)) ∧
    (∀ u : SIMDIter Nat, next 4 u = none →
      SIMDMap.mapNext (next 4)
        (⟨u, fun v => v ++ v⟩ : SIMDMap (SIMDIter Nat) (List Nat) (List Nat))
        = none) :=
  c5_map_tail_scaling (endIter 4) (next 4) 8 4 (fun v => v ++ v)
    ⟨4, [1,2,3,4,5], [0,0,0,0]⟩ ⟨5, [1,2,3,4,5], [0,0,0,0]⟩ [0,0,0,5] 3
    (by rfl) (by decide)

/-- Witness for C8 at `[1,2,3]` with width 4 and a non-trivial mutator. -/
theorem c8_for_each_small_buffer_frame_witness :
    (forEachTailStores 4 2 (fun v => v.map (· + 1))
      (simd_iter ([1,2,3] : List Nat) [0,0,0,0])).map Prod.fst
      = List.range [1,2,3].length :=
  c8_for_each_small_buffer_frame [1,2,3] [0,0,0,0] 4 2 (fun v => v.map (· + 1))
    (by decide)

lemma range_map_load_append {α : Type} (B : List α) (w pos k m : Nat) :
    (List.range k).map (fun t => load B (pos + t * w) w)
      ++ (List.range m).map (fun t => load B (pos + k * w + t * w) w)
      = (List.range (k + m)).map (fun t => load B (pos + t * w) w) := by
  rw [List.range_add, List.map_append, List.map_map]
  congr 1
  apply List.map_congr_left
  intro t _
  simp only [Function.comp_apply]
  congr 1
  rw [Nat.add_mul]
  ring

namespace Unrolled

/-- Characterization of the pulling loop of `Unrolled::next`: starting at
slot `i` with `rem` pulls allowed, it obtains `min rem s` vectors, where
`s` is the number of full vectors remaining, advancing the inner cursor
accordingly; the freshly written prefix of the scratch array holds exactly
those vectors in order. -/
lemma unrolledFill_spec {α : Type} (w : Nat) (hw : 0 < w) (B d : List α) :
    ∀ (rem i pos : Nat) (scratch : List (List α)),
      i + rem ≤ scratch.length →
      (unrolledFill w rem i (⟨pos, B, d⟩ : SIMDIter α) scratch).1
          = i + min rem ((B.length - pos) / w) ∧
      (unrolledFill w rem i (⟨pos, B, d⟩ : SIMDIter α) scratch).2.1
          = ⟨pos + (min rem ((B.length - pos) / w)) * w, B, d⟩ ∧
      (unrolledFill w rem i (⟨pos, B, d⟩ : SIMDIter α) scratch).2.2.length
          = scratch.length ∧
      (unrolledFill w rem i (⟨pos, B, d⟩ : SIMDIter α) scratch).2.2.take
          (i + min rem ((B.length - pos) / w))
          = scratch.take i ++ (List.range (min rem ((B.length - pos) / w))).map
              (fun t => load B (pos + t * w) w) := by
  intro rem
  induction rem with
  | zero =>
    intro i pos scratch hb
    simp [unrolledFill]
  | succ m ih =>
    intro i pos scratch hb
    by_cases hcond : pos + w ≤ B.length
    · have hwle : w ≤ B.length - pos := by omega
      have hs : (B.length - pos) / w = (B.length - pos - w) / w + 1 :=
        Nat.div_eq_sub_div hw hwle
      have hnext : next w (⟨pos, B, d⟩ : SIMDIter α) =
          some (load B pos w, ⟨pos + w, B, d⟩) := by
        simp [next, scalar_len, advance, hcond]
      have hsub : B.length - (pos + w) = B.length - pos - w := by omega
      have hslen : (scratch.set i (load B pos w)).length = scratch.length := by
        simp
      obtain ⟨ih1, ih2, ih3, ih4⟩ :=
        ih (i + 1) (pos + w) (scratch.set i (load B pos w)) (by rw [hslen]; omega)
      rw [hsub] at ih1 ih2 ih4
      simp only [unrolledFill, hnext]
      have hmin : min (m + 1) ((B.length - pos) / w)
          = min m ((B.length - pos - w) / w) + 1 := by
        rw [hs, Nat.succ_min_succ]
      refine ⟨?_, ?_, ?_, ?_⟩
      · rw [ih1, hmin]
        omega
      · rw [ih2, hmin]
        congr 1
        rw [Nat.add_mul, Nat.one_mul]
        ring
      · rw [ih3, hslen]
      · rw [hmin]
        have hidx : i + (min m ((B.length - pos - w) / w) + 1)
            = i + 1 + min m ((B.length - pos - w) / w) := by omega
        rw [hidx, ih4, set_take_succ (by omega : i < scratch.length),
          List.range_succ_eq_map, List.map_cons, List.map_map]
        simp only [Nat.zero_mul, Nat.add_zero]
        rw [← List.append_cons]
        congr 1
        congr 1
        apply List.map_congr_left
        intro t _
        simp only [Function.comp_apply]
        congr 1
        rw [Nat.succ_mul]
        ring
    · have hs0 : (B.length - pos) / w = 0 := Nat.div_eq_of_lt (by omega)
      have hnone : next w (⟨pos, B, d⟩ : SIMDIter α) = none := by
        simp [next, scalar_len, hcond]
      simp [unrolledFill, hnone, hs0]

/-- When no full vector remains, `Unrolled::next` yields nothing and leaves
the view unchanged. -/
lemma unrolledNext_exhausted {α : Type} (w : Nat) (hw : 0 < w)
    (B d : List α) (pos N : Nat) (scratch : List (List α))
    (hs0 : (B.length - pos) / w = 0) :
    unrolledNext w (⟨⟨pos, B, d⟩, N, scratch⟩ : Unrolled α)
      = (none, ⟨⟨pos, B, d⟩, N, scratch⟩) := by
  have hlt : B.length - pos < w := by
    rcases Nat.lt_or_ge (B.length - pos) w with h | h
    · exact h
    · exact absurd hs0 (by have := Nat.div_pos h hw; omega)
  have hnone : next w (⟨pos, B, d⟩ : SIMDIter α) = none :=
    next_eq_none (by simp only [scalar_len]; omega)
  have hfill : unrolledFill w N 0 (⟨pos, B, d⟩ : SIMDIter α) scratch
      = (0, ⟨pos, B, d⟩, scratch) := by
    cases N with
    | zero => rfl
    | succ n => simp [unrolledFill, hnone]
  simp [unrolledNext, hfill]

/-- Characterization of fuelled batch iteration over the unroll view: with
`s` full vectors remaining, it yields `ceil(s / N)` non-empty batches whose
concatenation is the `s` vectors in order, the last batch holding `s mod N`
vectors (`N` when `N` divides `s`), and afterwards the view is exhausted. -/
lemma unrolledBatches_spec {α : Type} (w : Nat) (hw : 0 < w)
    (B d : List α) (N : Nat) (hN1 : 1 ≤ N) (hN8 : N ≤ 8) :
    ∀ (fuel pos : Nat) (scratch : List (List α)), scratch.length = 8 →
      (B.length - pos) / w ≤ fuel →
      (unrolledBatches w fuel (⟨⟨pos, B, d⟩, N, scratch⟩ : Unrolled α)).1.length
          = ((B.length - pos) / w + N - 1) / N ∧
      (unrolledBatches w fuel (⟨⟨pos, B, d⟩, N, scratch⟩ : Unrolled α)).1.flatten
          = (List.range ((B.length - pos) / w)).map (fun k => load B (pos + k * w) w) ∧
      (∀ b ∈ (unrolledBatches w fuel (⟨⟨pos, B, d⟩, N, scratch⟩ : Unrolled α)).1,
        b ≠ []) ∧
      (0 < (B.length - pos) / w →
        ((unrolledBatches w fuel
            (⟨⟨pos, B, d⟩, N, scratch⟩ : Unrolled α)).1.getLastD []).length
          = if (B.length - pos) / w % N = 0 then N
            else (B.length - pos) / w % N) ∧
      (unrolledNext w
        (unrolledBatches w fuel (⟨⟨pos, B, d⟩, N, scratch⟩ : Unrolled α)).2).1
          = none := by
  intro fuel
  induction fuel with
  | zero =>
    intro pos scratch hscr h
    have hs0 : (B.length - pos) / w = 0 := Nat.le_zero.mp h
    refine ⟨?_, ?_, ?_, ?_, ?_⟩
    · show (0 : Nat) = ((B.length - pos) / w + N - 1) / N
      rw [hs0, Nat.zero_add]
      exact (Nat.div_eq_of_lt (by omega)).symm
    · rw [hs0]
      rfl
    · intro b hb
      exact absurd hb (List.not_mem_nil b)
    · intro hpos
      rw [hs0] at hpos
      omega
    · show (unrolledNext w (⟨⟨pos, B, d⟩, N, scratch⟩ : Unrolled α)).1 = none
      rw [unrolledNext_exhausted w hw B d pos N scratch hs0]

  | succ fuel ih =>
    intro pos scratch hscr h
    by_cases hs0 : (B.length - pos) / w = 0
    · have hstep := unrolledNext_exhausted w hw B d pos N scratch hs0
      have hb0 : unrolledBatches w (fuel + 1) (⟨⟨pos, B, d⟩, N, scratch⟩ : Unrolled α)
          = ([], ⟨⟨pos, B, d⟩, N, scratch⟩) := by
        simp [unrolledBatches, hstep]
      rw [hb0]
      refine ⟨?_, ?_, ?_, ?_, ?_⟩
      · show (0 : Nat) = ((B.length - pos) / w + N - 1) / N
        rw [hs0, Nat.zero_add]
        exact (Nat.div_eq_of_lt (by omega)).symm
      · rw [hs0]
        rfl
      · intro b hb
        exact absurd hb (List.not_mem_nil b)
      · intro hpos
        rw [hs0] at hpos
        omega
      · show (unrolledNext w (⟨⟨pos, B, d⟩, N, scratch⟩ : Unrolled α)).1 = none
        rw [hstep]
    · obtain ⟨f1, f2, f3, f4⟩ := unrolledFill_spec w hw B d N 0 pos scratch
        (by omega)
      simp only [Nat.zero_add] at f1 f2 f4
      simp only [List.take_zero, List.nil_append] at f4
      rcases hfe : unrolledFill w N 0 (⟨pos, B, d⟩ : SIMDIter α) scratch
        with ⟨i', it', scr'⟩
      rw [hfe] at f1 f2 f3 f4
      dsimp only at f1 f2 f3 f4
      subst f1 f2
      have hminle : min N ((B.length - pos) / w) ≤ (B.length - pos) / w :=
        Nat.min_le_right _ _
      have hkpos : 0 < min N ((B.length - pos) / w) := by
        rcases Nat.le_total N ((B.length - pos) / w) with hc | hc
        · rw [Nat.min_eq_left hc]
          exact hN1
        · rw [Nat.min_eq_right hc]
          exact Nat.pos_of_ne_zero hs0
      have hstep : unrolledNext w (⟨⟨pos, B, d⟩, N, scratch⟩ : Unrolled α)
          = (some (scr'.take (min N ((B.length - pos) / w))),
             ⟨⟨pos + min N ((B.length - pos) / w) * w, B, d⟩, N, scr'⟩) := by
        simp [unrolledNext, hfe, hkpos]
      have hkw : min N ((B.length - pos) / w) * w ≤ B.length - pos := by
        calc min N ((B.length - pos) / w) * w
            ≤ ((B.length - pos) / w) * w :=
              Nat.mul_le_mul_right w hminle
        _ ≤ B.length - pos := Nat.div_mul_le_self _ _
      have hs2 : (B.length - (pos + min N ((B.length - pos) / w) * w)) / w
          = (B.length - pos) / w - min N ((B.length - pos) / w) := by
        have h1 : B.length - (pos + min N ((B.length - pos) / w) * w)
            = (B.length - pos) - w * min N ((B.length - pos) / w) := by
          rw [Nat.mul_comm]
          omega
        rw [h1, Nat.sub_mul_div _ _ _ (by rw [Nat.mul_comm]; omega)]
      have hle2 : (B.length - (pos + min N ((B.length - pos) / w) * w)) / w
          ≤ fuel := by
        rw [hs2]
        omega
      obtain ⟨ih1, ih2, ih3, ih4, ih5⟩ :=
        ih (pos + min N ((B.length - pos) / w) * w) scr' (by rw [f3]; exact hscr)
          hle2
      rw [hs2] at ih1 ih2 ih4
      have hbatch : unrolledBatches w (fuel + 1)
            (⟨⟨pos, B, d⟩, N, scratch⟩ : Unrolled α)
          = (scr'.take (min N ((B.length - pos) / w))
              :: (unrolledBatches w fuel
                  (⟨⟨pos + min N ((B.length - pos) / w) * w, B, d⟩, N, scr'⟩ :
                    Unrolled α)).1,
             (unrolledBatches w fuel
                  (⟨⟨pos + min N ((B.length - pos) / w) * w, B, d⟩, N, scr'⟩ :
                    Unrolled α)).2) := by
        simp [unrolledBatches, hstep]
      rw [hbatch]
      have hid1 : ((B.length - pos) / w + N - 1) / N
          = ((B.length - pos) / w - 1) / N + 1 := by
        have e : (B.length - pos) / w + N - 1 - N = (B.length - pos) / w - 1 := by
          omega
        rw [Nat.div_eq_sub_div (by omega) (by omega), e]
      have hid2 : ((B.length - pos) / w - min N ((B.length - pos) / w) + N - 1) / N
          = ((B.length - pos) / w - 1) / N := by
        rcases le_or_lt N ((B.length - pos) / w) with hcase | hcase
        · rw [Nat.min_eq_left hcase]
          congr 1
          omega
        · rw [Nat.min_eq_right (le_of_lt hcase)]
          have e1 : (B.length - pos) / w - (B.length - pos) / w + N - 1
              = N - 1 := by omega
          have z1 : (N - 1) / N = 0 := Nat.div_eq_of_lt (by omega)
          have z2 : ((B.length - pos) / w - 1) / N = 0 :=
            Nat.div_eq_of_lt (by omega)
          rw [e1, z1, z2]
      refine ⟨?_, ?_, ?_, ?_, ?_⟩
      · simp only [List.length_cons]
        rw [ih1, hid2, hid1]
      · rw [List.flatten_cons, f4, ih2, range_map_load_append B w pos
          (min N ((B.length - pos) / w))
          ((B.length - pos) / w - min N ((B.length - pos) / w))]
        have e : min N ((B.length - pos) / w)
            + ((B.length - pos) / w - min N ((B.length - pos) / w))
            = (B.length - pos) / w := by omega
        rw [e]
      · intro b hb
        rcases List.mem_cons.mp hb with hb1 | hb2
        · subst hb1
          rw [f4]
          intro hcontra
          have hlen := congrArg List.length hcontra
          simp at hlen
          omega
        · exact ih3 b hb2
      · intro _hpos
        by_cases hrest : (B.length - pos) / w - min N ((B.length - pos) / w) = 0
        · have hrlen : (unrolledBatches w fuel
              (⟨⟨pos + min N ((B.length - pos) / w) * w, B, d⟩, N, scr'⟩ :
                Unrolled α)).1.length = 0 := by
            rw [ih1, hrest, Nat.zero_add]
            exact Nat.div_eq_of_lt (by omega)
          rw [List.length_eq_zero.mp hrlen, List.getLastD_cons, List.getLastD_nil,
            f4]
          simp only [List.length_map, List.length_range]
          rcases le_or_lt N ((B.length - pos) / w) with hcase | hcase
          · have hmin : min N ((B.length - pos) / w) = N := Nat.min_eq_left hcase
            have hsN : (B.length - pos) / w = N := by omega
            rw [hmin, hsN, if_pos (Nat.mod_self N)]
          · have hmin : min N ((B.length - pos) / w) = (B.length - pos) / w :=
              Nat.min_eq_right (le_of_lt hcase)
            rw [hmin, Nat.mod_eq_of_lt hcase, if_neg (by omega)]
        · have hcase : N ≤ (B.length - pos) / w := by
            rcases le_or_lt N ((B.length - pos) / w) with hc | hc
            · exact hc
            · exact absurd hrest
                (by rw [Nat.min_eq_right (le_of_lt hc)]; omega)
          have hmin : min N ((B.length - pos) / w) = N := Nat.min_eq_left hcase
          have hrne : (unrolledBatches w fuel
              (⟨⟨pos + min N ((B.length - pos) / w) * w, B, d⟩, N, scr'⟩ :
                Unrolled α)).1 ≠ [] := by
            intro hc
            have hl := congrArg List.length hc
            rw [ih1] at hl
            simp at hl
            have := Nat.div_pos (by omega :
              N ≤ (B.length - pos) / w - min N ((B.length - pos) / w) + N - 1)
              (by omega)
            omega
          obtain ⟨x, hx⟩ :=
            Option.isSome_iff_exists.mp (List.getLast?_isSome.mpr hrne)
          have hih := ih4 (by omega)
          rw [List.getLastD_eq_getLast?, hx, Option.getD_some] at hih
          rw [List.getLastD_cons, List.getLastD_eq_getLast?, hx, Option.getD_some,
            hih, hmin]
          have hmod : ((B.length - pos) / w - N) % N = (B.length - pos) / w % N :=
            (Nat.mod_eq_sub_mod hcase).symm
          rw [hmod]
      · exact ih5

end Unrolled

open Unrolled

/-- C9: unroll batching: over a buffer with exactly `V = L / w` full vectors
and batch size `1 ≤ N ≤ 8`, the unroll view yields exactly `ceil(V / N)`
non-empty batches whose concatenation is the `V` vectors in order; the last
batch has length `V mod N` (or `N` when `N` divides `V`); after exhaustion
the view yields nothing; batch sizes above 8 fail the construction-time
assertion. -/
theorem c9_unroll_batching {α : Type} [Inhabited α] (B d : List α)
    (w N fuel : Nat) (hw : 0 < w) (hN1 : 1 ≤ N) (hN8 : N ≤ 8)
    (hfuel : B.length / w ≤ fuel) :
    (∀ M, 8 < M → unroll w (simd_iter B d) M = none) ∧
    unroll w (simd_iter B d) N
      = some ⟨⟨0, B, d⟩, N, List.replicate 8 (vecDefault α w)⟩ ∧
    (unrolledBatches w fuel
        (⟨⟨0, B, d⟩, N, List.replicate 8 (vecDefault α w)⟩ : Unrolled α)).1.length
      = (B.length / w + N - 1) / N ∧
    (unrolledBatches w fuel
        (⟨⟨0, B, d⟩, N, List.replicate 8 (vecDefault α w)⟩ : Unrolled α)).1.flatten
      = (List.range (B.length / w)).map (fun k => load B (k * w) w) ∧
    (∀ b ∈ (unrolledBatches w fuel
        (⟨⟨0, B, d⟩, N, List.replicate 8 (vecDefault α w)⟩ : Unrolled α)).1,
      b ≠ []) ∧
    (0 < B.length / w →
      ((unrolledBatches w fuel
          (⟨⟨0, B, d⟩, N, List.replicate 8 (vecDefault α w)⟩ :
            Unrolled α)).1.getLastD []).length
        = if N ∣ B.length / w then N else B.length / w % N) ∧
    (unrolledNext w (unrolledBatches w fuel
        (⟨⟨0, B, d⟩, N, List.replicate 8 (vecDefault α w)⟩ :
          Unrolled α)).2).1 = none := by
  obtain ⟨b1, b2, b3, b4, b5⟩ := unrolledBatches_spec w hw B d N hN1 hN8 fuel 0
    (List.replicate 8 (vecDefault α w)) (by simp) (by simpa using hfuel)
  simp only [Nat.sub_zero, Nat.zero_add] at b1 b2 b3 b4 b5
  refine ⟨?_, ?_, b1, b2, b3, ?_, b5⟩
  · intro M hM
    simp [unroll]
    omega
  · simp [unroll, hN8, simd_iter]
  · intro hpos
    rw [b4 hpos]
    have hiff : B.length / w % N = 0 ↔ N ∣ B.length / w :=
      (Nat.dvd_iff_mod_eq_zero).symm
    by_cases hdvd : N ∣ B.length / w
    · rw [if_pos (hiff.mpr hdvd), if_pos hdvd]
    · rw [if_neg (fun hc => hdvd (hiff.mp hc)), if_neg hdvd]

/-- Witness for C9: buffer of 40 scalars, width 4 (10 full vectors), batch
size 3: four batches, the last of length 1. -/
theorem c9_unroll_batching_witness :
    (∀ M, 8 < M → unroll 4 (simd_iter (List.range 40) ([0,0,0,0] : List Nat)) M
      = none) ∧
    unroll 4 (simd_iter (List.range 40) ([0,0,0,0] : List Nat)) 3
      = some ⟨⟨0, List.range 40, [0,0,0,0]⟩, 3,
              List.replicate 8 (vecDefault Nat 4)⟩ ∧
    (unrolledBatches 4 10
        (⟨⟨0, List.range 40, [0,0,0,0]⟩, 3, List.replicate 8 (vecDefault Nat 4)⟩ :
          Unrolled Nat)).1.length = ((List.range 40).length / 4 + 3 - 1) / 3 ∧
    (unrolledBatches 4 10
        (⟨⟨0, List.range 40, [0,0,0,0]⟩, 3, List.replicate 8 (vecDefault Nat 4)⟩ :
          Unrolled Nat)).1.flatten
      = (List.range ((List.range 40).length / 4)).map
          (fun k => load (List.range 40) (k * 4) 4) ∧
    (∀ b ∈ (unrolledBatches 4 10
        (⟨⟨0, List.range 40, [0,0,0,0]⟩, 3, List.replicate 8 (vecDefault Nat 4)⟩ :
          Unrolled Nat)).1, b ≠ []) ∧
    (0 < (List.range 40).length / 4 →
      ((unrolledBatches 4 10
          (⟨⟨0, List.range 40, [0,0,0,0]⟩, 3, List.replicate 8 (vecDefault Nat 4)⟩ :
            Unrolled Nat)).1.getLastD []).length
        = if 3 ∣ (List.range 40).length / 4 then 3
          else (List.range 40).length / 4 % 3) ∧
    (unrolledNext 4 (unrolledBatches 4 10
        (⟨⟨0, List.range 40, [0,0,0,0]⟩, 3, List.replicate 8 (vecDefault Nat 4)⟩ :
          Unrolled Nat)).2).1 = none :=
  c9_unroll_batching (List.range 40) [0,0,0,0] 4 3 10
    (by decide) (by decide) (by decide) (by decide)

/-- Witness for C10 at a concrete exhausted iterator. -/
theorem c10_post_exhaustion_noop_witness :
    next 2 (⟨3, [9,9,9], [0,0]⟩ : SIMDIter Nat) = none ∧
    endIter 2 (⟨3, [9,9,9], [0,0]⟩ : SIMDIter Nat) = none ∧
    (simd_reduce 2 5 (0 : Nat) (fun acc v => acc + v.length)
      (⟨3, [9,9,9], [0,0]⟩ : SIMDIter Nat)).1 = 0 :=
  c10_post_exhaustion_noop 2 5 ⟨3, [9,9,9], [0,0]⟩ 0 _
    (by decide) (by decide)

end Faster
